import Mathlib

/-!
Verification of the FaceDetection hash-table benchmark harness
(`src/perfTest.cpp`) against its natural-language specification.

The harness drives a sequential and a fine-grained concurrent hash table
over instruction traces.  We shallowly embed the harness code: C `int`
arithmetic is modelled as integers wrapped into `[-2^31, 2^31)` (two's
complement), C strings as `List Char`, and fallible operations
(`std::string::substr` out of range) as `Except`.
-/

namespace PerfTest

/-! ### The fixed hash function (perfTest.cpp, lines 34-43)

```cpp
int hash(int tag) {
    int temp = tag;
    int hashVal = 7;
    while(temp != 0) {
        hashVal *= 31;
        hashVal += temp % 10;
        temp /= 10;
    }
    return abs(hashVal);
}
```

`int` is 32-bit two's complement; overflow of the multiply-accumulate is
modelled as wrap-around into `[-2^31, 2^31)`.  C `%` and `/` truncate
toward zero, which on `Int` is `tmod`/`tdiv`.  `abs` of `INT_MIN` wraps
back to `INT_MIN`.
-/

/-- Reduce an integer into the 32-bit two's-complement range `[-2^31, 2^31)`. -/
def wrap32 (x : Int) : Int := (x + 2147483648) % 4294967296 - 2147483648

/-- One loop iteration on `hashVal`: `hashVal *= 31; hashVal += d;` with
32-bit wrap-around after each operation. -/
def hashStep (h d : Int) : Int := wrap32 (wrap32 (h * 31) + d)

/-- The `while(temp != 0)` loop of `hash`.  The first argument is fuel;
`fuel ≥` the number of decimal digits of `|temp|` suffices, and the
top-level entry point passes `|tag|` itself, which is always enough. -/
def hashGoI : Nat → Int → Int → Int
  | 0, _, h => h
  | fuel + 1, t, h => if t = 0 then h else hashGoI fuel (t.tdiv 10) (hashStep h (t.tmod 10))

/-- C `abs` on a 32-bit `int`: negating `INT_MIN` wraps back to `INT_MIN`. -/
def cAbs (x : Int) : Int := wrap32 (if x < 0 then -x else x)

/-- `hash` from perfTest.cpp lines 34-43, on 32-bit two's-complement ints. -/
def hash (tag : Int) : Int := cAbs (hashGoI tag.natAbs tag 7)

example : hash 0 = 7 := by decide
example : hash 7 = 224 := by decide
example : hash 12 = 6790 := by decide
example : hash 10 = 6728 := by decide

/-- C2: the spec's hash fixtures hold on the code: `hash 0 = 7`,
`hash 7 = 7*31+7 = 224`, `hash 12 = (7*31+2)*31+1 = 6790`; both of the
latter are positive, so the final `abs` changes nothing. -/
theorem C2_hash_fixtures :
    hash 0 = 7 ∧ hash 7 = 7 * 31 + 7 ∧ hash 12 = (7 * 31 + 2) * 31 + 1 ∧
      (0 : Int) ≤ 7 * 31 + 7 ∧ (0 : Int) ≤ (7 * 31 + 2) * 31 + 1 := by
  refine ⟨by decide, by decide, by decide, by decide, by decide⟩

/-- C3 counterexample: the claim states `hash 10 = 7*31 + 0 = 217`, but on
`tag = 10` the loop runs twice (`10 / 10 = 1 ≠ 0`), giving
`(7*31 + 0)*31 + 1 = 6728 ≠ 217`. -/
theorem C3_cex_hash_ten : hash 10 ≠ 217 ∧ hash 10 = 6728 := by
  refine ⟨by decide, by decide⟩

/-- C3 amended: `hash 10 = (7*31 + 0)*31 + 1 = 6728` (the loop continues on
`temp = 1`), and hash is deterministic. -/
theorem C3_amended_hash_ten :
    hash 10 = (7 * 31 + 0) * 31 + 1 ∧ ∀ n : Int, hash n = hash n := by
  exact ⟨by decide, fun n => rfl⟩

/-! ### Instructions and trace parsing (perfTest.cpp, lines 14-18 and 45-81)

```cpp
enum Instr { insert, del, lookup };
```

`parseText` reads a file line by line; a non-blank line is parsed into a
`std::pair<Instr, std::pair<int,int>> task`.  The pair is
default-constructed, which value-initializes the enum to `Instr(0)`,
i.e. `insert`; the `switch` on the leading character overwrites it for
`'L'`/`'I'`/`'D'` and leaves it on `default`.  Key and value come from
`atoi` on `str.substr(2)` split at the first space; `find_first_of`
returning `npos` is stored into `int spcIdx`, giving `-1`, so
`substr(0, -1)` reads the whole remainder and `substr(-1 + 1) = substr(0)`
reads it again.  `str.substr(2)` throws `std::out_of_range` when
`str.length() < 2`.
-/

/-- The `Instr` enum; `insert` is enumerator 0. -/
inductive Instr : Type
  | insert
  | del
  | lookup
deriving DecidableEq, Repr

/-- One parsed instruction: `std::pair<Instr, std::pair<int,int>>`. -/
abbrev Task := Instr × Int × Int

/-- The only failure in the parsing path: `std::string::substr` with
`pos > size()` throws `std::out_of_range`. -/
inductive ParseErr : Type
  | outOfRange
deriving DecidableEq, Repr

/-- C `isspace` on the default locale (the characters `atoi` skips). -/
def isSpaceC (c : Char) : Bool :=
  c == ' ' || c == '\t' || c == '\n' || c == '\x0b' || c == '\x0c' || c == '\r'

/-- Digit-accumulation loop of C `atoi` (stops at the first non-digit).
C `atoi` overflow is undefined behaviour; no trace in scope overflows, and
we model the accumulator as unbounded. -/
def atoiDigits : List Char → Int → Int
  | [], acc => acc
  | c :: cs, acc =>
    if c.isDigit then atoiDigits cs (10 * acc + ((c.toNat : Int) - 48)) else acc

/-- C `atoi`: skip leading whitespace, optional sign, then digits; `0` when
no digits follow. -/
def atoi (cs : List Char) : Int :=
  match cs.dropWhile isSpaceC with
  | '-' :: rest => -(atoiDigits rest 0)
  | '+' :: rest => atoiDigits rest 0
  | rest => atoiDigits rest 0

/-- The `switch(instr)` of `parseText`: unrecognized characters leave
`task.first` at its value-initialized state, `Instr(0) = insert`. -/
def opOfChar (c : Char) : Instr :=
  if c = 'L' then .lookup
  else if c = 'I' then .insert
  else if c = 'D' then .del
  else .insert

/-- `std::string::substr(pos)`: throws `std::out_of_range` when
`pos > size()`, else the suffix from `pos`. -/
def substrFrom (s : List Char) (pos : Nat) : Except ParseErr (List Char) :=
  if pos ≤ s.length then .ok (s.drop pos) else .error .outOfRange

/-- Parse one non-blank line into a `task` (perfTest.cpp lines 57-77).
`rest.find_first_of(' ')` is `none` for `npos` (stored as `-1` in the C
code); `substr(0, npos)` is the whole string and `substr(npos + 1) =
substr(0)` is again the whole string. -/
def parseLine (s : List Char) : Except ParseErr Task := do
  let c := s.headD ' '
  let rest ← substrFrom s 2
  let spcIdx := rest.findIdx? (· == ' ')
  let keyStr := match spcIdx with
    | some i => rest.take i
    | none => rest
  let valStr := match spcIdx with
    | some i => rest.drop (i + 1)
    | none => rest
  return (opOfChar c, atoi keyStr, atoi valStr)

/-- The `while(!infile.eof())` loop of `parseText`: blank lines are
skipped, every other line is parsed and pushed onto the accumulator. -/
def parseLinesFrom (acc : List Task) : List (List Char) → Except ParseErr (List Task)
  | [] => .ok acc
  | s :: rest =>
    if 0 < s.length then do
      let t ← parseLine s
      parseLinesFrom (acc ++ [t]) rest
    else parseLinesFrom acc rest

/-- `parseText` (perfTest.cpp lines 45-81): `input.resize(0)` first empties
the global instruction vector (modelled by `old.take 0`), then the parse
loop refills it from the file's lines. -/
def parseText (old : List Task) (lines : List (List Char)) : Except ParseErr (List Task) :=
  parseLinesFrom (old.take 0) lines

example : parseLine ['I', ' ', '5', ' ', '7'] = .ok (.insert, 5, 7) := by rfl
example : parseLine ['D', ' ', '4', '2', ' ', '9'] = .ok (.del, 42, 9) := by rfl
example : parseLine ['X', ' ', '5', ' ', '1', '0'] = .ok (.insert, 5, 10) := by rfl
example : parseLine ['L'] = .error .outOfRange := by rfl

/-- Prepending to the accumulator commutes out of `parseLinesFrom`. -/
theorem parseLinesFrom_append (pre : List Task) :
    ∀ (ls : List (List Char)) (acc : List Task),
      parseLinesFrom (pre ++ acc) ls = (parseLinesFrom acc ls).map (pre ++ ·)
  | [], acc => by simp [parseLinesFrom, Except.map]
  | s :: rest, acc => by
    by_cases h : 0 < s.length
    · simp only [parseLinesFrom, if_pos h]
      cases hp : parseLine s with
      | ok t =>
        simpa [Except.map, bind, Except.bind, hp, List.append_assoc] using
          parseLinesFrom_append pre rest (acc ++ [t])
      | error e => simp [Except.map, bind, Except.bind, hp]
    · simp only [parseLinesFrom, if_neg h]
      exact parseLinesFrom_append pre rest acc

/-- `parseLinesFrom` with the empty accumulator is `mapM parseLine` over
the non-blank lines. -/
theorem parseLinesFrom_eq_mapM :
    ∀ ls : List (List Char),
      parseLinesFrom [] ls = (ls.filter (fun s => 0 < s.length)).mapM parseLine
  | [] => rfl
  | s :: rest => by
    by_cases h : 0 < s.length
    · have hfilter : (s :: rest).filter (fun s => 0 < s.length)
          = s :: rest.filter (fun s => 0 < s.length) := by
        simp [List.filter_cons, h]
      rw [hfilter, List.mapM_cons]
      simp only [parseLinesFrom, if_pos h]
      cases hp : parseLine s with
      | ok t =>
        have hpre := parseLinesFrom_append [t] rest []
        simp only [List.append_nil] at hpre
        simp only [bind, Except.bind, hp, List.nil_append, hpre,
          parseLinesFrom_eq_mapM rest]
        cases (rest.filter (fun s => 0 < s.length)).mapM parseLine with
        | ok xs => simp [Except.map, pure, Except.pure]
        | error e => simp [Except.map]
      | error e => simp [bind, Except.bind, hp]
    · have hfilter : (s :: rest).filter (fun s => 0 < s.length)
          = rest.filter (fun s => 0 < s.length) := by
        simp [List.filter_cons, h]
      rw [hfilter]
      simp only [parseLinesFrom, if_neg h]
      exact parseLinesFrom_eq_mapM rest

/-- C9: each `parseText` call replaces the instruction list entirely: the
result never depends on the previously parsed instructions, and on
success it is exactly the parses of the file's non-blank lines in file
order. -/
theorem C9_parseText_replaces (old : List Task) (lines : List (List Char)) :
    parseText old lines = parseText [] lines ∧
      parseText old lines = (lines.filter (fun s => 0 < s.length)).mapM parseLine := by
  exact ⟨rfl, parseLinesFrom_eq_mapM lines⟩

/-- C10: for non-blank lines, `parseLine` is total exactly on lines of
length ≥ 2: such a line yields one instruction whose key and value are
`atoi` of the text after offset 2 (split at the first space), and the
parse loop appends exactly that one instruction; a single-character line
makes `str.substr(2)` fail out of range. -/
theorem C10_parseLine_totality (s : List Char) :
    (2 ≤ s.length →
      parseLine s = .ok (opOfChar (s.headD ' '),
        atoi (match (s.drop 2).findIdx? (· == ' ') with
          | some i => (s.drop 2).take i
          | none => s.drop 2),
        atoi (match (s.drop 2).findIdx? (· == ' ') with
          | some i => (s.drop 2).drop (i + 1)
          | none => s.drop 2))) ∧
    (s.length = 1 → parseLine s = .error .outOfRange) ∧
    (∀ (acc : List Task) (rest : List (List Char)) (t : Task),
      2 ≤ s.length → parseLine s = .ok t →
        parseLinesFrom acc (s :: rest) = parseLinesFrom (acc ++ [t]) rest) := by
  refine ⟨fun h2 => ?_, fun h1 => ?_, fun acc rest t h2 hp => ?_⟩
  · simp [parseLine, substrFrom, if_pos h2, bind, Except.bind, pure, Except.pure]
  · have : ¬ (2 ≤ s.length) := by omega
    simp [parseLine, substrFrom, if_neg this, bind, Except.bind]
  · have hpos : 0 < s.length := by omega
    simp [parseLinesFrom, if_pos hpos, bind, Except.bind, hp]

/-- C10 witness: a concrete length-5 line parses to exactly one
instruction, and a concrete length-1 line fails out of range. -/
theorem C10_witness :
    parseLine ['I', ' ', '5', ' ', '7'] = .ok (.insert, 5, 7) ∧
      parseLine ['L'] = .error .outOfRange :=
  ⟨((C10_parseLine_totality ['I', ' ', '5', ' ', '7']).1 (by decide)).trans (by rfl),
    (C10_parseLine_totality ['L']).2.1 (by decide)⟩

/-! ### The hash tables

The headers `seq_hash_table.h` and `fg_hash_table.h` are part of the
repository but are not under `src/`; only their caller `perfTest.cpp` is.
Their operations are therefore modelled from the spec (§4.2, §4.3, §9).
Both variants have the same sequential semantics (the fine-grained
variant adds per-bucket mutexes, which do not change the per-operation
result), so one model serves for both.
-/

/-- Modelled from the spec: `seq_hash_table.h`/`fg_hash_table.h` are not
under `src/`.  "A fixed-length array of Buckets (count chosen at
construction)" (§3); each bucket is an unordered singly-linked chain of
key/value nodes, head = most recently inserted (§4.2). -/
structure HTable where
  buckets : List (List (Int × Int))
deriving DecidableEq, Repr

/-- Number of buckets (fixed at construction). -/
def HTable.capacity (t : HTable) : Nat := t.buckets.length

/-- Modelled from the spec: table construction with a capacity; "If this
is ≤ 0 (tiny traces), clamp to a minimum of 1" (§9).  The harness passes
a non-negative count, so ≤ 0 means 0 here. -/
def mkTable (cap : Nat) : HTable := ⟨List.replicate (max cap 1) []⟩

/-- Bucket index: `hash(k) mod capacity` (spec §3, invariants). -/
def HTable.bucketOf (t : HTable) (k : Int) : Nat := (hash k).toNat % t.capacity

/-- Modelled from the spec: `insert(k, v)` allocates a node and prepends
it to bucket `hash(k) mod capacity`; always succeeds, no duplicate check
(§4.2). -/
def HTable.insertKV (t : HTable) (k v : Int) : HTable :=
  let b := t.bucketOf k
  ⟨t.buckets.set b ((k, v) :: t.buckets.getD b [])⟩

/-- Chain scan for the first node with the given key (spec §4.2). -/
def chainFind (k : Int) : List (Int × Int) → Option (Int × Int)
  | [] => none
  | (k', v') :: rest => if k' = k then some (k', v') else chainFind k rest

/-- Modelled from the spec: `find(k)` returns the first node with key `k`
in chain order, or none (§4.2). -/
def HTable.find (t : HTable) (k : Int) : Option (Int × Int) :=
  chainFind k (t.buckets.getD (t.bucketOf k) [])

/-- Chain scan that unlinks the first node with the given key (spec §4.2). -/
def chainRemove (k : Int) : List (Int × Int) → Option (Int × Int) × List (Int × Int)
  | [] => (none, [])
  | (k', v') :: rest =>
    if k' = k then (some (k', v'), rest)
    else
      let (r, rest') := chainRemove k rest
      (r, (k', v') :: rest')

/-- Modelled from the spec: `remove(k)` unlinks and returns the first node
with key `k`, or none; the table keeps the other nodes (§4.2). -/
def HTable.remove (t : HTable) (k : Int) : Option (Int × Int) × HTable :=
  let b := t.bucketOf k
  let (r, chain') := chainRemove k (t.buckets.getD b [])
  (r, ⟨t.buckets.set b chain'⟩)

/-! ### Dispatch of one instruction (perfTest.cpp, `seqRun` and `fgRun`)

`seqRun` (lines 119-143) dispatches each instruction on the sequential
table and `assert`s that the node returned by `remove`/`find` carries the
instruction's value; a mismatch is a fatal assertion failure, and a NULL
return is a fatal NULL dereference (`->get_data()` on NULL).  `fgRun`
(lines 83-117) dispatches on the fine-grained table; a non-NULL result
with a mismatched value only prints an error line and continues, a NULL
result prints nothing.
-/

/-- Result of dispatching one instruction in `seqRun`: either the updated
table, or a fatal stop (failed `assert`, or `->get_data()` on NULL). -/
inductive SeqOutcome : Type
  | ok (t : HTable)
  | fatal
deriving DecidableEq, Repr

/-- One iteration of the `seqRun` loop (perfTest.cpp lines 122-138). -/
def seqStep (t : HTable) (ins : Task) : SeqOutcome :=
  match ins.1 with
  | .insert => .ok (t.insertKV ins.2.1 ins.2.2)
  | .del =>
    match t.remove ins.2.1 with
    | (some node, t') => if node.2 = ins.2.2 then .ok t' else .fatal
    | (none, _) => .fatal
  | .lookup =>
    match t.find ins.2.1 with
    | some node => if node.2 = ins.2.2 then .ok t else .fatal
    | none => .fatal

/-- One iteration of the `fgRun` loop (perfTest.cpp lines 89-114); the
`Bool` records whether the `printf("Error: ...")` warning line was
printed.  Execution always continues. -/
def fgStep (t : HTable) (ins : Task) : HTable × Bool :=
  match ins.1 with
  | .insert => (t.insertKV ins.2.1 ins.2.2, false)
  | .del =>
    match t.remove ins.2.1 with
    | (some node, t') => (t', node.2 != ins.2.2)
    | (none, t') => (t', false)
  | .lookup =>
    match t.find ins.2.1 with
    | some node => (t, node.2 != ins.2.2)
    | none => (t, false)

/-- C5: a value mismatch on `del`/`lookup` is fatal in the sequential run
(assertion), but in the concurrent run a non-null mismatching result only
raises the warning flag and execution continues with the updated table,
and a null result raises no warning. -/
theorem C5_mismatch_handling (t : HTable) (k v : Int) :
    (∀ node t', t.remove k = (some node, t') → node.2 ≠ v →
      seqStep t (.del, k, v) = .fatal) ∧
    (∀ node, t.find k = some node → node.2 ≠ v →
      seqStep t (.lookup, k, v) = .fatal) ∧
    (∀ node t', t.remove k = (some node, t') → node.2 ≠ v →
      fgStep t (.del, k, v) = (t', true)) ∧
    (∀ node, t.find k = some node → node.2 ≠ v →
      fgStep t (.lookup, k, v) = (t, true)) ∧
    (∀ t', t.remove k = (none, t') → (fgStep t (.del, k, v)).2 = false) ∧
    (t.find k = none → (fgStep t (.lookup, k, v)).2 = false) := by
  refine ⟨fun node t' hr hm => ?_, fun node hf hm => ?_, fun node t' hr hm => ?_,
    fun node hf hm => ?_, fun t' hr => ?_, fun hf => ?_⟩
  · simp [seqStep, hr, if_neg hm]
  · simp [seqStep, hf, if_neg hm]
  · simp [fgStep, hr, bne_iff_ne, hm]
  · simp [fgStep, hf, bne_iff_ne, hm]
  · simp [fgStep, hr]
  · simp [fgStep, hf]

/-- C5 witness: on the one-bucket table holding `(1, 10)`, deleting key 1
expecting value 99 is fatal sequentially but merely warns concurrently;
deleting the absent key 2 warns nobody. -/
theorem C5_witness :
    seqStep ⟨[[(1, 10)]]⟩ (.del, 1, 99) = .fatal ∧
      fgStep ⟨[[(1, 10)]]⟩ (.del, 1, 99) = (⟨[[]]⟩, true) ∧
      (fgStep ⟨[[(1, 10)]]⟩ (.del, 2, 5)).2 = false :=
  ⟨(C5_mismatch_handling ⟨[[(1, 10)]]⟩ 1 99).1 (1, 10) ⟨[[]]⟩ (by rfl) (by decide),
    (C5_mismatch_handling ⟨[[(1, 10)]]⟩ 1 99).2.2.1 (1, 10) ⟨[[]]⟩ (by rfl) (by decide),
    (C5_mismatch_handling ⟨[[(1, 10)]]⟩ 2 5).2.2.2.2.1 ⟨[[(1, 10)]]⟩ (by rfl)⟩

/-- The table capacity the harness passes to both constructors:
`input.size() / 1000` (perfTest.cpp lines 156 and 160). -/
def harnessCapacity (numInstrs : Nat) : Nat := numInstrs / 1000

/-- C7: the tables are constructed with capacity `instructions / 1000`
clamped to a minimum of 1; every trace with fewer than 1000 instructions
gets capacity 1. -/
theorem C7_capacity (n : Nat) :
    (mkTable (harnessCapacity n)).capacity = max (n / 1000) 1 ∧
      (n < 1000 → (mkTable (harnessCapacity n)).capacity = 1) := by
  constructor
  · simp [mkTable, HTable.capacity, harnessCapacity]
  · intro h
    have : n / 1000 = 0 := Nat.div_eq_of_lt h
    simp [mkTable, HTable.capacity, harnessCapacity, this]

/-- C7 witness: a 500-instruction trace gets capacity 1. -/
theorem C7_witness : (mkTable (harnessCapacity 500)).capacity = 1 :=
  (C7_capacity 500).2 (by decide)

/-- C4 counterexample: the line `"X 5 10"` has an unrecognized leading
character, yet the parsed instruction's op is `insert` (the
value-initialized `Instr(0)`), and dispatching it in either run changes
the table — an insert of `(5, 10)` is performed, not a skip. -/
theorem C4_cex_malformed_line_inserts :
    parseLine ['X', ' ', '5', ' ', '1', '0'] = .ok (.insert, 5, 10) ∧
      (fgStep (mkTable 1) (.insert, 5, 10)).1 ≠ mkTable 1 ∧
      seqStep (mkTable 1) (.insert, 5, 10) = .ok ((mkTable 1).insertKV 5 10) ∧
      (mkTable 1).insertKV 5 10 ≠ mkTable 1 := by
  refine ⟨by rfl, by decide, by rfl, by decide⟩

/-- C4 amended: a non-blank line (of length ≥ 2) whose first character is
none of 'L', 'I', 'D' still produces an instruction, but its op is the
value-initialized enumerator `insert` (`Instr(0)`), and at dispatch both
runs perform an insert of the parsed key and value. -/
theorem C4_amended_malformed_line (s : List Char) (h2 : 2 ≤ s.length)
    (hL : s.headD ' ' ≠ 'L') (hI : s.headD ' ' ≠ 'I') (hD : s.headD ' ' ≠ 'D') :
    ∃ k v, parseLine s = .ok (.insert, k, v) ∧
      ∀ t : HTable, fgStep t (.insert, k, v) = (t.insertKV k v, false) ∧
        seqStep t (.insert, k, v) = .ok (t.insertKV k v) := by
  have hp := (C10_parseLine_totality s).1 h2
  rw [opOfChar, if_neg hL, if_neg hI, if_neg hD] at hp
  exact ⟨_, _, hp, fun t => ⟨rfl, rfl⟩⟩

/-- C4 witness (for the amended claim): the malformed line `"X 5 10"`. -/
theorem C4_witness :
    ∃ k v, parseLine ['X', ' ', '5', ' ', '1', '0'] = .ok (.insert, k, v) ∧
      ∀ t : HTable, fgStep t (.insert, k, v) = (t.insertKV k v, false) ∧
        seqStep t (.insert, k, v) = .ok (t.insertKV k v) :=
  C4_amended_malformed_line ['X', ' ', '5', ' ', '1', '0'] (by decide)
    (by decide) (by decide) (by decide)

/-! ### Worker slicing in `fgRun` (perfTest.cpp, lines 83-117)

```cpp
int instrPerThread = input.size() / numThreads;
int start = instrPerThread * id;
int end = (start + instrPerThread < input.size()) ? (start + instrPerThread)
                                                  : input.size();
for (int i = start; i < end; i++) { ... }
```
-/

/-- `instrPerThread` (line 86): instructions per worker, `N / T`. -/
def instrPerThread (N T : Nat) : Nat := N / T

/-- `start` (line 87): first index of worker `id`'s slice. -/
def sliceStart (N T id : Nat) : Nat := instrPerThread N T * id

/-- `end` (line 88): one past the last index of worker `id`'s slice. -/
def sliceEnd (N T id : Nat) : Nat :=
  if sliceStart N T id + instrPerThread N T < N then sliceStart N T id + instrPerThread N T
  else N

/-- Worker `id` executes instruction `i` iff `start ≤ i < end` (line 89). -/
def fgExecutes (N T id i : Nat) : Prop :=
  sliceStart N T id ≤ i ∧ i < sliceEnd N T id

instance (N T id i : Nat) : Decidable (fgExecutes N T id i) := by
  unfold fgExecutes
  infer_instance

/-- For a valid worker id the ternary in line 88 always yields
`(id+1) * ⌊N/T⌋`. -/
theorem sliceEnd_eq (N T id : Nat) (hid : id < T) :
    sliceEnd N T id = N / T * (id + 1) := by
  have h1 : N / T * (id + 1) ≤ N / T * T := Nat.mul_le_mul_left _ (by omega)
  have h2 : N / T * T ≤ N := Nat.div_mul_le_self N T
  have h3 : N / T * (id + 1) = N / T * id + N / T := Nat.mul_succ _ _
  unfold sliceEnd sliceStart instrPerThread
  split <;> omega

/-- C1: the concurrent run partitions the instructions into contiguous
non-overlapping slices: worker `id` executes exactly the indices in
`[id*⌊N/T⌋, (id+1)*⌊N/T⌋)`, indices at or beyond `T*⌊N/T⌋` (the final
`N mod T` instructions) are executed by no worker, and for `N = 10`,
`T = 3` the workers get `0..2`, `3..5`, `6..8` while op 9 is executed by
nobody. -/
theorem C1_partition (N T id i : Nat) (hT : 0 < T) (hid : id < T) :
    (fgExecutes N T id i ↔ N / T * id ≤ i ∧ i < N / T * (id + 1)) ∧
    (T * (N / T) ≤ i → ∀ id', id' < T → ¬ fgExecutes N T id' i) ∧
    (∀ j, fgExecutes 10 3 0 j ↔ j < 3) ∧
    (∀ j, fgExecutes 10 3 1 j ↔ 3 ≤ j ∧ j < 6) ∧
    (∀ j, fgExecutes 10 3 2 j ↔ 6 ≤ j ∧ j < 9) ∧
    (∀ id', id' < 3 → ¬ fgExecutes 10 3 id' 9) := by
  have hT' : 0 < T := hT
  refine ⟨?_, ?_, ?_, ?_, ?_, by decide⟩
  · rw [fgExecutes, sliceEnd_eq N T id hid, sliceStart, instrPerThread]
  · intro hi id' hid' hex
    rw [fgExecutes, sliceEnd_eq N T id' hid'] at hex
    have h1 : N / T * (id' + 1) ≤ N / T * T := Nat.mul_le_mul_left _ (by omega)
    have h2 : N / T * T = T * (N / T) := Nat.mul_comm _ _
    omega
  · intro j
    simp only [fgExecutes, sliceStart, sliceEnd, instrPerThread]
    norm_num
  · intro j
    simp only [fgExecutes, sliceStart, sliceEnd, instrPerThread]
    norm_num
  · intro j
    simp only [fgExecutes, sliceStart, sliceEnd, instrPerThread]
    norm_num

/-- C1 witness: with `N = 10`, `T = 3`, worker 0 executes op 2 and nobody
executes op 9. -/
theorem C1_witness : fgExecutes 10 3 0 2 ∧ ¬ fgExecutes 10 3 0 9 :=
  ⟨((C1_partition 10 3 0 2 (by decide) (by decide)).1).mpr (by decide),
    (C1_partition 10 3 0 9 (by decide) (by decide)).2.2.2.2.2 0 (by decide)⟩

/-! ### The main loop (perfTest.cpp, lines 25-32 and 145-178)

`main` iterates over `testfiles`; for each file it parses, constructs the
sequential baseline with capacity `input.size()/1000`, runs it, then for
`j = 1; j <= 16; j *= 2` constructs a fresh fine-grained table of the
same capacity, runs `j` workers, and deletes the table; finally it
deletes the baseline.  We model the sequence of harness actions as an
event list, parameterized by the parsed instruction count of each file
(the only data flowing into capacities).
-/

/-- The five active entries of the `args` array (lines 25-31); the two
commented-out entries are not part of the array. -/
def testfiles : List String :=
  ["tests/uniform_all_test.txt", "tests/chunked_test_InsDel.txt",
   "tests/50p_del_test_InsDel.txt", "tests/25p_del_test_InsDel.txt",
   "tests/10p_del_all.txt"]

/-- One observable harness action of `main`. -/
inductive Event : Type
  | parseFile (f : String)
  | newSeqTable (cap : Nat)
  | runSeq
  | newFgTable (cap : Nat)
  | runFg (T : Nat)
  | deleteFg
  | deleteSeq
deriving DecidableEq, Repr

/-- The `for (uint j = 1; j <= 16; j *= 2)` loop (lines 158-175).  The
first argument is fuel bounding the iteration count; starting from
`j = 1` the loop doubles `j` and stops past 16 after 5 iterations, so
fuel 17 (used by `mainEvents`) is never exhausted. -/
def fgLoopEvents (cap : Nat) : Nat → Nat → List Event
  | 0, _ => []
  | fuel + 1, j =>
    if j ≤ 16 then
      .newFgTable cap :: .runFg j :: .deleteFg :: fgLoopEvents cap fuel (j * 2)
    else []

/-- The body of the file loop (lines 153-177): parse, build and run the
baseline, run the fine-grained loop, delete the baseline. -/
def fileEvents (sizes : String → Nat) (f : String) : List Event :=
  .parseFile f :: .newSeqTable (sizes f / 1000) :: .runSeq ::
    (fgLoopEvents (sizes f / 1000) 17 1 ++ [.deleteSeq])

/-- All harness actions of `main`, given each file's parsed instruction
count. -/
def mainEvents (sizes : String → Nat) : List Event :=
  (testfiles.map (fileEvents sizes)).flatten

/-- C8: the harness processes exactly the five trace files in order; for
each file it first runs the sequential baseline, then for each
`T ∈ [1, 2, 4, 8, 16]` in increasing order constructs a fresh
fine-grained table of the same capacity, runs it, and destroys it before
the next `T`. -/
theorem C8_schedule :
    testfiles = ["tests/uniform_all_test.txt", "tests/chunked_test_InsDel.txt",
      "tests/50p_del_test_InsDel.txt", "tests/25p_del_test_InsDel.txt",
      "tests/10p_del_all.txt"] ∧
    (∀ cap, fgLoopEvents cap 17 1 =
      ([1, 2, 4, 8, 16].map (fun T => [Event.newFgTable cap, .runFg T, .deleteFg])).flatten) ∧
    (∀ sizes : String → Nat, mainEvents sizes =
      (testfiles.map (fun f =>
        Event.parseFile f :: .newSeqTable (sizes f / 1000) :: .runSeq ::
          (([1, 2, 4, 8, 16].map (fun T =>
            [Event.newFgTable (sizes f / 1000), .runFg T, .deleteFg])).flatten
            ++ [.deleteSeq]))).flatten) := by
  refine ⟨rfl, fun cap => rfl, fun sizes => rfl⟩

/-! ### Non-negativity of `hash` (C6)

`abs` on a 32-bit int is negative exactly at `INT_MIN`, so `hash` could in
principle return a negative value if the wrapped accumulator ever ended at
the bit pattern `0x80000000`.  We show it never does for any representable
non-negative `tag`: for `tag < 10^5` the exact accumulator stays below
`2^31`; for larger tags we split off the low 5 or 6 decimal digits, whose
exact accumulator `A` lies in a narrow base-31-digit set, and check — one
modular inversion per high part — that no high part maps any such `A` to
`2^31 (mod 2^32)`.
-/

/-- Exact (unwrapped) value of the `hash` accumulator loop. -/
def hashE : Nat → Nat → Nat → Nat
  | 0, _, h => h
  | fuel + 1, t, h => if t = 0 then h else hashE fuel (t / 10) (h * 31 + t % 10)

/-- The accumulator loop with each step reduced mod `2^32` (the unsigned
image of the two's-complement accumulator). -/
def hashWGo : Nat → Nat → Nat → Nat
  | 0, _, h => h
  | fuel + 1, t, h =>
    if t = 0 then h else hashWGo fuel (t / 10) ((h * 31 + t % 10) % 4294967296)

/-- Number of decimal digits the loop processes (0 for `t = 0`). -/
def ndGo : Nat → Nat → Nat
  | 0, _ => 0
  | fuel + 1, t => if t = 0 then 0 else ndGo fuel (t / 10) + 1

/-- Number of loop iterations on input `t` (fuel `t` always suffices). -/
def nd (t : Nat) : Nat := ndGo t t

theorem wrap32_spec (x : Int) :
    wrap32 x % 4294967296 = x % 4294967296 ∧
      -2147483648 ≤ wrap32 x ∧ wrap32 x < 2147483648 := by
  unfold wrap32
  omega

theorem wrap32_eq_of_emod_eq {x y : Int} (h : x % 4294967296 = y % 4294967296) :
    wrap32 x = wrap32 y := by
  unfold wrap32
  omega

/-- One wrapped step on a non-negative accumulator image. -/
theorem hashStep_wrap (n d : Nat) :
    hashStep (wrap32 (n : Int)) (d : Int) = wrap32 (((n * 31 + d) % 4294967296 : Nat) : Int) := by
  unfold hashStep wrap32
  push_cast
  omega

/-- The `Int` loop of the source agrees with the unsigned wrapped loop. -/
theorem hashGoI_eq_wrap :
    ∀ (f t n : Nat), hashGoI f (t : Int) (wrap32 (n : Int)) = wrap32 ((hashWGo f t n : Nat) : Int)
  | 0, _, _ => rfl
  | f + 1, t, n => by
    by_cases ht : t = 0
    · simp [hashGoI, hashWGo, ht]
    · have htI : ((t : Int) = 0) = False := by
        simp [Int.natCast_eq_zero, ht]
      have hdiv : (t : Int).tdiv 10 = ((t / 10 : Nat) : Int) := rfl
      have hmod : (t : Int).tmod 10 = ((t % 10 : Nat) : Int) := rfl
      simp only [hashGoI, hashWGo, htI, if_false, if_neg ht, hdiv, hmod, hashStep_wrap]
      exact hashGoI_eq_wrap f (t / 10) ((n * 31 + t % 10) % 4294967296)

/-- The exact accumulator is congruent step by step: congruent seeds give
congruent results. -/
theorem hashE_mod_congr :
    ∀ (f t : Nat) {a b : Nat}, a % 4294967296 = b % 4294967296 →
      hashE f t a % 4294967296 = hashE f t b % 4294967296
  | 0, _, _, _, h => h
  | f + 1, t, a, b, h => by
    by_cases ht : t = 0
    · simpa [hashE, ht] using h
    · simp only [hashE, if_neg ht]
      exact hashE_mod_congr f (t / 10) (by omega)

/-- The wrapped loop is the exact loop mod `2^32`. -/
theorem hashWGo_eq_hashE :
    ∀ (f t n : Nat), n < 4294967296 → hashWGo f t n = hashE f t n % 4294967296
  | 0, _, n, hn => (Nat.mod_eq_of_lt hn).symm
  | f + 1, t, n, hn => by
    by_cases ht : t = 0
    · simp [hashWGo, hashE, ht, Nat.mod_eq_of_lt hn]
    · simp only [hashWGo, hashE, if_neg ht]
      rw [hashWGo_eq_hashE f (t / 10) _ (Nat.mod_lt _ (by norm_num))]
      exact hashE_mod_congr f (t / 10) (by omega)

/-- `hash` on a non-negative int, reduced to the exact Nat accumulator. -/
theorem hash_natCast (tag : Nat) :
    hash (tag : Int) = cAbs (wrap32 ((hashE tag tag 7 % 4294967296 : Nat) : Int)) := by
  have h7 : (7 : Int) = wrap32 ((7 : Nat) : Int) := by decide
  have habs : ((tag : Int)).natAbs = tag := Int.natAbs_ofNat tag
  rw [hash, habs, h7, hashGoI_eq_wrap tag tag 7,
    hashWGo_eq_hashE tag tag 7 (by norm_num)]

/-- `abs` of a wrapped value is non-negative unless the value is the
`INT_MIN` pattern `2^31`. -/
theorem cAbs_wrap32_nonneg (m : Nat) (hlt : m < 4294967296) (hne : m ≠ 2147483648) :
    0 ≤ cAbs (wrap32 (m : Int)) := by
  unfold cAbs wrap32
  split <;> omega

theorem hashE_zero_t (f h : Nat) : hashE f 0 h = h := by
  cases f <;> simp [hashE]

theorem hashE_succ (f t h : Nat) (ht : t ≠ 0) :
    hashE (f + 1) t h = hashE f (t / 10) (h * 31 + t % 10) := by
  simp [hashE, ht]

theorem ndGo_zero_t (f : Nat) : ndGo f 0 = 0 := by
  cases f <;> simp [ndGo]

/-- Any fuel at least `t` computes the same exact accumulator. -/
theorem hashE_fuel_congr :
    ∀ (f₁ f₂ t h : Nat), t ≤ f₁ → t ≤ f₂ → hashE f₁ t h = hashE f₂ t h
  | 0, f₂, t, h, h₁, _ => by
    have : t = 0 := by omega
    subst this
    rw [hashE_zero_t, hashE_zero_t]
  | f₁ + 1, f₂, t, h, h₁, h₂ => by
    by_cases ht : t = 0
    · subst ht
      rw [hashE_zero_t, hashE_zero_t]
    · have hf₂ : f₂ ≠ 0 := by omega
      obtain ⟨g₂, rfl⟩ := Nat.exists_eq_succ_of_ne_zero hf₂
      rw [hashE_succ _ _ _ ht, hashE_succ _ _ _ ht]
      have hd : t / 10 < t := Nat.div_lt_self (by omega) (by norm_num)
      exact hashE_fuel_congr f₁ g₂ (t / 10) _ (by omega) (by omega)

/-- Any fuel at least `t` computes the same digit count. -/
theorem ndGo_fuel_congr :
    ∀ (f₁ f₂ t : Nat), t ≤ f₁ → t ≤ f₂ → ndGo f₁ t = ndGo f₂ t
  | 0, f₂, t, h₁, _ => by
    have : t = 0 := by omega
    subst this
    rw [ndGo_zero_t, ndGo_zero_t]
  | f₁ + 1, f₂, t, h₁, h₂ => by
    by_cases ht : t = 0
    · subst ht
      rw [ndGo_zero_t, ndGo_zero_t]
    · have hf₂ : f₂ ≠ 0 := by omega
      obtain ⟨g₂, rfl⟩ := Nat.exists_eq_succ_of_ne_zero hf₂
      simp only [ndGo, if_neg ht]
      have hd : t / 10 < t := Nat.div_lt_self (by omega) (by norm_num)
      exact congrArg (· + 1) (ndGo_fuel_congr f₁ g₂ (t / 10) (by omega) (by omega))

/-- The digit count of a `k`-digit number is at most `k`. -/
theorem ndGo_le : ∀ (k f t : Nat), t < 10 ^ k → ndGo f t ≤ k
  | k, 0, t, _ => by simp [ndGo]
  | 0, f + 1, t, hk => by
    have : t = 0 := by simpa using hk
    simp [this, ndGo_zero_t]
  | k + 1, f + 1, t, hk => by
    by_cases ht : t = 0
    · simp [ht, ndGo_zero_t]
    · simp only [ndGo, if_neg ht]
      have : t / 10 < 10 ^ k := by
        rw [Nat.div_lt_iff_lt_mul (by norm_num)]
        calc t < 10 ^ (k + 1) := hk
        _ = 10 ^ k * 10 := by ring
      exact Nat.succ_le_succ (ndGo_le k f (t / 10) this)

/-- The digit count of a nonzero number is at least 1 (given fuel). -/
theorem ndGo_pos (f t : Nat) (ht : t ≠ 0) (hf : f ≠ 0) : 1 ≤ ndGo f t := by
  obtain ⟨g, rfl⟩ := Nat.exists_eq_succ_of_ne_zero hf
  simp [ndGo, if_neg ht]

/-- Exact accumulator bound: a `k`-digit input multiplies the seed by at
most `31^k` (plus digit contributions). -/
theorem hashE_lt :
    ∀ (k f t h : Nat), t < 10 ^ k → t ≤ f → hashE f t h < (h + 1) * 31 ^ k
  | 0, f, t, h, hk, _ => by
    have : t = 0 := by simpa using hk
    subst this
    rw [hashE_zero_t]
    simp
  | k + 1, f, t, h, hk, hf => by
    have hpow : 0 < 31 ^ (k + 1) := Nat.pos_pow_of_pos _ (by norm_num)
    by_cases ht : t = 0
    · subst ht
      rw [hashE_zero_t]
      calc h < h + 1 := by omega
      _ ≤ (h + 1) * 31 ^ (k + 1) := Nat.le_mul_of_pos_right _ hpow
    · have hf' : f ≠ 0 := by omega
      obtain ⟨g, rfl⟩ := Nat.exists_eq_succ_of_ne_zero hf'
      rw [hashE_succ _ _ _ ht]
      have htk : t / 10 < 10 ^ k := by
        rw [Nat.div_lt_iff_lt_mul (by norm_num)]
        calc t < 10 ^ (k + 1) := hk
        _ = 10 ^ k * 10 := by ring
      have hrec := hashE_lt k g (t / 10) (h * 31 + t % 10) htk
        (by have := Nat.div_lt_self (Nat.pos_of_ne_zero ht) (show 1 < 10 by norm_num); omega)
      have hd : t % 10 ≤ 9 := by omega
      calc hashE g (t / 10) (h * 31 + t % 10)
          < (h * 31 + t % 10 + 1) * 31 ^ k := hrec
      _ ≤ ((h + 1) * 31) * 31 ^ k := Nat.mul_le_mul_right _ (by omega)
      _ = (h + 1) * 31 ^ (k + 1) := by ring

/-- Seed linearity of the exact accumulator: the seed is scaled by
`31^digits` and the rest is the seed-0 value. -/
theorem hashE_linear :
    ∀ (f t h : Nat), t ≤ f → hashE f t h = h * 31 ^ ndGo f t + hashE f t 0
  | 0, t, h, hf => by
    have : t = 0 := by omega
    subst this
    simp [hashE_zero_t, ndGo_zero_t]
  | f + 1, t, h, hf => by
    by_cases ht : t = 0
    · simp [ht, hashE_zero_t, ndGo_zero_t]
    · have hle : t / 10 ≤ f := by
        have := Nat.div_lt_self (Nat.pos_of_ne_zero ht) (show 1 < 10 by norm_num)
        omega
      rw [hashE_succ _ _ _ ht, hashE_succ _ _ _ ht,
        hashE_linear f (t / 10) (h * 31 + t % 10) hle]
      simp only [Nat.zero_mul, Nat.zero_add]
      rw [hashE_linear f (t / 10) (t % 10) hle]
      simp only [ndGo, if_neg ht]
      ring

/-- Inverses of `31^e` modulo `2^32` for the digit counts that occur. -/
def inv31pow : Nat → Nat
  | 1 => 3186588639
  | 2 => 3427929153
  | 3 => 3574261663
  | 4 => 1916414081
  | 5 => 2140029791
  | _ => 1

theorem inv31pow_mul (e : Nat) (h1 : 1 ≤ e) (h2 : e ≤ 5) :
    31 ^ e * inv31pow e % 4294967296 = 1 := by
  interval_cases e <;> decide

/-- Values of the exact accumulator after consuming the 5 low decimal
digits of a number `≥ 10^5`, starting from seed 7: `7·31^5` plus a number
whose five base-31 digits are all ≤ 9.  (Superset test; only soundness in
the `accA5 → isA5` direction is needed.) -/
def isA5 (r : Nat) : Prop :=
  200404057 ≤ r ∧ r - 200404057 < 28629151 ∧
    (r - 200404057) % 31 ≤ 9 ∧
    (r - 200404057) / 31 % 31 ≤ 9 ∧
    (r - 200404057) / 31 / 31 % 31 ≤ 9 ∧
    (r - 200404057) / 31 / 31 / 31 % 31 ≤ 9 ∧
    (r - 200404057) / 31 / 31 / 31 / 31 % 31 ≤ 9

instance (r : Nat) : Decidable (isA5 r) := by
  unfold isA5
  infer_instance

/-- Same for the 6 low decimal digits of a number `≥ 10^6`: the exact
accumulator lies in `[7·31^6, 7·31^6 + 9·Σ31^j] ⊆ [2^32, 2^33)`, so its
residue is the value minus `2^32`; `7·31^6 - 2^32 = 1917558471`. -/
def isA6 (r : Nat) : Prop :=
  1917558471 ≤ r ∧ r - 1917558471 < 887503681 ∧
    (r - 1917558471) % 31 ≤ 9 ∧
    (r - 1917558471) / 31 % 31 ≤ 9 ∧
    (r - 1917558471) / 31 / 31 % 31 ≤ 9 ∧
    (r - 1917558471) / 31 / 31 / 31 % 31 ≤ 9 ∧
    (r - 1917558471) / 31 / 31 / 31 / 31 % 31 ≤ 9 ∧
    (r - 1917558471) / 31 / 31 / 31 / 31 / 31 % 31 ≤ 9

instance (r : Nat) : Decidable (isA6 r) := by
  unfold isA6
  infer_instance

/-- The unique residue `A (mod 2^32)` that would make high part `hi`
complete the accumulator to the `INT_MIN` pattern:
`(2^31 - hashE hi 0) · (31^digits)⁻¹ (mod 2^32)`. -/
def targetOf (hi : Nat) : Nat :=
  (2147483648 + (4294967296 - hashE hi hi 0 % 4294967296)) * inv31pow (nd hi) % 4294967296

/-- No low part consumed as 5 digits can be completed by high part `hi`. -/
def checkHi5 (hi : Nat) : Bool := decide (¬ isA5 (targetOf hi))

/-- No low part consumed as 6 digits can be completed by high part `hi`. -/
def checkHi6 (hi : Nat) : Bool := decide (¬ isA6 (targetOf hi))

/-- Balanced-interval conjunction of `p` over `[a, b)`, fuel-bounded so
that the kernel can evaluate it without deep recursion. -/
def checkIv (p : Nat → Bool) : Nat → Nat → Nat → Bool
  | 0, a, b => decide (b ≤ a)
  | fuel + 1, a, b =>
    if b ≤ a then true
    else if b = a + 1 then p a
    else checkIv p fuel a ((a + b) / 2) && checkIv p fuel ((a + b) / 2) b

theorem checkIv_sound (p : Nat → Bool) :
    ∀ (fuel a b : Nat), checkIv p fuel a b = true →
      ∀ x, a ≤ x → x < b → p x = true
  | 0, a, b, hc, x, hax, hxb => by
    simp only [checkIv, decide_eq_true_eq] at hc
    omega
  | fuel + 1, a, b, hc, x, hax, hxb => by
    simp only [checkIv] at hc
    by_cases hba : b ≤ a
    · omega
    · rw [if_neg hba] at hc
      by_cases hb1 : b = a + 1
      · rw [if_pos hb1] at hc
        have : x = a := by omega
        rwa [this]
      · rw [if_neg hb1, Bool.and_eq_true] at hc
        by_cases hmid : x < (a + b) / 2
        · exact checkIv_sound p fuel a ((a + b) / 2) hc.1 x hax hmid
        · exact checkIv_sound p fuel ((a + b) / 2) b hc.2 x (by omega) hxb

/-- The exact accumulator after the 5 low decimal digits, seed 7
(`hashE` unrolled five times). -/
def accA5 (t : Nat) : Nat :=
  ((((7 * 31 + t % 10) * 31 + t / 10 % 10) * 31 + t / 100 % 10) * 31
      + t / 1000 % 10) * 31 + t / 10000 % 10

/-- The exact accumulator after the 6 low decimal digits, seed 7. -/
def accA6 (t : Nat) : Nat := accA5 t * 31 + t / 100000 % 10

theorem hashE_split5 (g t : Nat) (ht : 100000 ≤ t) :
    hashE (g + 5) t 7 = hashE g (t / 100000) (accA5 t) := by
  have h0 : t ≠ 0 := by omega
  have h1 : t / 10 ≠ 0 := by omega
  have h2 : t / 10 / 10 ≠ 0 := by omega
  have h3 : t / 10 / 10 / 10 ≠ 0 := by omega
  have h4 : t / 10 / 10 / 10 / 10 ≠ 0 := by omega
  rw [show g + 5 = g + 4 + 1 by omega, hashE_succ _ _ _ h0,
    hashE_succ _ _ _ h1, hashE_succ _ _ _ h2, hashE_succ _ _ _ h3,
    hashE_succ _ _ _ h4]
  simp only [Nat.div_div_eq_div_mul, accA5]

theorem hashE_split6 (g t : Nat) (ht : 1000000 ≤ t) :
    hashE (g + 6) t 7 = hashE g (t / 1000000) (accA6 t) := by
  have h5 : t / 100000 ≠ 0 := by omega
  rw [show g + 6 = g + 1 + 5 by omega, hashE_split5 (g + 1) t (by omega),
    hashE_succ _ _ _ h5]
  simp only [Nat.div_div_eq_div_mul, accA6]

theorem isA5_digits (d0 d1 d2 d3 d4 : Nat) (h0 : d0 < 10) (h1 : d1 < 10)
    (h2 : d2 < 10) (h3 : d3 < 10) (h4 : d4 < 10) :
    isA5 (((((7 * 31 + d0) * 31 + d1) * 31 + d2) * 31 + d3) * 31 + d4) := by
  unfold isA5
  omega

theorem isA6_digits (d0 d1 d2 d3 d4 d5 : Nat) (h0 : d0 < 10) (h1 : d1 < 10)
    (h2 : d2 < 10) (h3 : d3 < 10) (h4 : d4 < 10) (h5 : d5 < 10) :
    isA6 ((((((7 * 31 + d0) * 31 + d1) * 31 + d2) * 31 + d3) * 31 + d4) * 31 + d5
      - 4294967296) := by
  unfold isA6
  omega

theorem isA5_accA5 (t : Nat) : isA5 (accA5 t) := by
  unfold accA5
  exact isA5_digits _ _ _ _ _ (by omega) (by omega) (by omega) (by omega) (by omega)

theorem isA6_accA6_sub (t : Nat) : isA6 (accA6 t - 4294967296) := by
  unfold accA6 accA5
  exact isA6_digits _ _ _ _ _ _ (by omega) (by omega) (by omega) (by omega)
    (by omega) (by omega)

theorem accA5_bounds (t : Nat) : 200404057 ≤ accA5 t ∧ accA5 t ≤ 208992802 := by
  unfold accA5
  omega

theorem accA6_bounds (t : Nat) :
    4294967296 ≤ accA6 t ∧ accA6 t < 8589934592 := by
  unfold accA6 accA5
  omega

/-- If completing `A` with high part `hi` hits the `INT_MIN` pattern, then
`A`'s residue is forced to be `targetOf hi`. -/
theorem target_of_congr (hi A : Nat) (he1 : 1 ≤ nd hi) (he2 : nd hi ≤ 5)
    (hc : (A * 31 ^ nd hi + hashE hi hi 0) % 4294967296 = 2147483648) :
    A % 4294967296 = targetOf hi := by
  have hPI : 31 ^ nd hi * inv31pow (nd hi) % 4294967296 = 1 := inv31pow_mul _ he1 he2
  have e1 : A * 31 ^ nd hi + hashE hi hi 0 ≡ 2147483648 [MOD 4294967296] := by
    unfold Nat.ModEq
    omega
  have e2 : hashE hi hi 0 + (4294967296 - hashE hi hi 0 % 4294967296) ≡ 0
      [MOD 4294967296] := by
    unfold Nat.ModEq
    omega
  have e5 : A * 31 ^ nd hi ≡
      2147483648 + (4294967296 - hashE hi hi 0 % 4294967296) [MOD 4294967296] := by
    have e3 := e1.add_right (4294967296 - hashE hi hi 0 % 4294967296)
    have e4 := Nat.ModEq.add_left (A * 31 ^ nd hi) e2
    have h' : A * 31 ^ nd hi + hashE hi hi 0
          + (4294967296 - hashE hi hi 0 % 4294967296)
        = A * 31 ^ nd hi
          + (hashE hi hi 0 + (4294967296 - hashE hi hi 0 % 4294967296)) := by
      omega
    rw [h'] at e3
    have e4' : A * 31 ^ nd hi
        + (hashE hi hi 0 + (4294967296 - hashE hi hi 0 % 4294967296))
        ≡ A * 31 ^ nd hi [MOD 4294967296] := by
      simpa using e4
    exact e4'.symm.trans e3
  have e6 := e5.mul_right (inv31pow (nd hi))
  have e7 : A * (31 ^ nd hi * inv31pow (nd hi)) ≡ A * 1 [MOD 4294967296] :=
    Nat.ModEq.mul_left A (by unfold Nat.ModEq; omega)
  have e9 : A * 1 ≡ A * (31 ^ nd hi * inv31pow (nd hi)) [MOD 4294967296] := e7.symm
  rw [show A * (31 ^ nd hi * inv31pow (nd hi)) = A * 31 ^ nd hi * inv31pow (nd hi)
    by ring] at e9
  have e11 := e9.trans e6
  rw [Nat.mul_one] at e11
  unfold targetOf
  unfold Nat.ModEq at e11
  rw [e11]

/-- Tags below `10^5`: the exact accumulator stays below `2^31`. -/
theorem region_small (tag : Nat) (h : tag < 100000) :
    hashE tag tag 7 % 4294967296 ≠ 2147483648 := by
  have h10 : (10 : Nat) ^ 5 = 100000 := by norm_num
  have hb := hashE_lt 5 tag tag 7 (h10 ▸ h) (le_refl tag)
  have h31 : (7 + 1) * 31 ^ 5 = 229033208 := by norm_num
  omega

theorem check5_holds : ∀ hi, 1 ≤ hi → hi < 10 → checkHi5 hi = true := by decide

set_option maxHeartbeats 4000000 in
theorem check6_holds : checkIv checkHi6 13 1 2148 = true := by decide

/-- Tags in `[10^5, 10^6)`: split off the 5 low digits and use the per-high
check. -/
theorem region5 (tag : Nat) (h1 : 100000 ≤ tag) (h2 : tag < 1000000) :
    hashE tag tag 7 % 4294967296 ≠ 2147483648 := by
  intro hcon
  have hfuel : hashE tag tag 7 = hashE (tag - 5 + 5) tag 7 :=
    hashE_fuel_congr _ _ _ _ (le_refl tag) (by omega)
  rw [hfuel, hashE_split5 (tag - 5) tag h1] at hcon
  have hhi1 : 1 ≤ tag / 100000 := by omega
  have hhi9 : tag / 100000 < 10 := by omega
  have hle : tag / 100000 ≤ tag - 5 := by omega
  rw [hashE_linear (tag - 5) (tag / 100000) (accA5 tag) hle,
    ndGo_fuel_congr (tag - 5) (tag / 100000) (tag / 100000) hle (le_refl _),
    hashE_fuel_congr (tag - 5) (tag / 100000) (tag / 100000) 0 hle (le_refl _)] at hcon
  have hnd1 : 1 ≤ nd (tag / 100000) := ndGo_pos _ _ (by omega) (by omega)
  have hnd5 : nd (tag / 100000) ≤ 5 :=
    le_trans (ndGo_le 1 _ _ (by simpa using hhi9)) (by norm_num)
  have htarget := target_of_congr (tag / 100000) (accA5 tag) hnd1 hnd5 hcon
  have hA := accA5_bounds tag
  rw [Nat.mod_eq_of_lt (by omega)] at htarget
  have hbad := check5_holds (tag / 100000) hhi1 hhi9
  rw [checkHi5, decide_eq_true_eq] at hbad
  exact hbad (htarget ▸ isA5_accA5 tag)

/-- Tags in `[10^6, 2^31)`: split off the 6 low digits; the exact low
accumulator exceeds `2^32` once, so its residue is the value minus `2^32`. -/
theorem region6 (tag : Nat) (h1 : 1000000 ≤ tag) (h2 : tag < 2147483648) :
    hashE tag tag 7 % 4294967296 ≠ 2147483648 := by
  intro hcon
  have hfuel : hashE tag tag 7 = hashE (tag - 6 + 6) tag 7 :=
    hashE_fuel_congr _ _ _ _ (le_refl tag) (by omega)
  rw [hfuel, hashE_split6 (tag - 6) tag h1] at hcon
  have hhi1 : 1 ≤ tag / 1000000 := by omega
  have hhi : tag / 1000000 < 2148 := by omega
  have hle : tag / 1000000 ≤ tag - 6 := by omega
  rw [hashE_linear (tag - 6) (tag / 1000000) (accA6 tag) hle,
    ndGo_fuel_congr (tag - 6) (tag / 1000000) (tag / 1000000) hle (le_refl _),
    hashE_fuel_congr (tag - 6) (tag / 1000000) (tag / 1000000) 0 hle (le_refl _)] at hcon
  have hnd1 : 1 ≤ nd (tag / 1000000) := ndGo_pos _ _ (by omega) (by omega)
  have hnd5 : nd (tag / 1000000) ≤ 5 := by
    have : tag / 1000000 < 10 ^ 4 := by norm_num; omega
    exact le_trans (ndGo_le 4 _ _ this) (by norm_num)
  have htarget := target_of_congr (tag / 1000000) (accA6 tag) hnd1 hnd5 hcon
  have hA := accA6_bounds tag
  rw [show accA6 tag % 4294967296 = accA6 tag - 4294967296 by omega] at htarget
  have hbad := checkIv_sound checkHi6 13 1 2148 check6_holds (tag / 1000000) hhi1 hhi
  rw [checkHi6, decide_eq_true_eq] at hbad
  exact hbad (htarget ▸ isA6_accA6_sub tag)

/-- The wrapped accumulator never ends at the `INT_MIN` bit pattern, for
any representable non-negative tag. -/
theorem hashE_ne_intmin (tag : Nat) (h : tag < 2147483648) :
    hashE tag tag 7 % 4294967296 ≠ 2147483648 := by
  rcases Nat.lt_or_ge tag 100000 with h1 | h1
  · exact region_small tag h1
  · rcases Nat.lt_or_ge tag 1000000 with h2 | h2
    · exact region5 tag h1 h2
    · exact region6 tag h2 h

/-- C6: for every representable non-negative `tag`, `hash tag` is
non-negative even under 32-bit two's-complement wrap-around of the
multiply-accumulate loop: the accumulator never ends at `INT_MIN`, so the
final `abs` always produces a non-negative bucket-index source. -/
theorem C6_hash_nonneg (tag : Int) (h0 : 0 ≤ tag) (h1 : tag < 2147483648) :
    0 ≤ hash tag := by
  obtain ⟨n, rfl⟩ := Int.eq_ofNat_of_zero_le h0
  rw [hash_natCast n]
  exact cAbs_wrap32_nonneg _ (Nat.mod_lt _ (by norm_num))
    (hashE_ne_intmin n (by exact_mod_cast h1))

/-- C6 witness: a concrete tag. -/
theorem C6_witness : 0 ≤ hash 123 := C6_hash_nonneg 123 (by decide) (by decide)

end PerfTest
